import Mathlib

/-!
# Surface tally filter (`src/tallies/filter_surface.cpp`)

A shallow embedding of `openmc::SurfaceFilter` and of the pieces of global
state it reads (`model::surface_map`, `model::surfaces`), followed by theorems
about its configuration, initialisation, matching, labelling and persistence.

Conventions of the embedding:

* `std::unordered_map<int, int>` is an association list with unique keys,
  read by `find` and written by `assign` (the C++ `m[k] = v`).
* `int` / `int32_t` values are `Int`; the arithmetic the source performs on
  them (`std::abs(x) - 1`, `x + 1`, `bin - 1`) is wrapped to 32 bits by
  `wrap32`.  Vector sizes and loop positions are `Nat`.
* An out-of-bounds vector access (undefined behaviour in the source) is
  `none`.
* `fatal_error` never returns: it is `Except.error`, carrying the message and
  the state of the filter at the moment of the call.
* The `double` literals `1.0` and `-1.0` pushed onto `weights_` are the
  integers `1` and `-1`.
-/

namespace openmc

/-! ## Machine integers -/

/-- Two's-complement reduction of an integer to the range of a 32-bit `int`. -/
def wrap32 (x : Int) : Int := (x + 2147483648) % 4294967296 - 2147483648

/-- Range of a 32-bit `int`. -/
def inInt32 (x : Int) : Prop := -2147483648 ≤ x ∧ x < 2147483648

instance (x : Int) : Decidable (inInt32 x) := by unfold inInt32; infer_instance

/-- The function `std::abs` on `int`. -/
def abs32 (x : Int) : Int := wrap32 (if x < 0 then -x else x)

/-- Decimal rendering of an `int`, as done by `operator<<` and `std::to_string`. -/
def to_string (x : Int) : String := toString x

/-! ## `std::unordered_map<int, int>` -/

/-- Association list standing for a `std::unordered_map<int, int>`. -/
abbrev IntMap := List (Int × Int)

/-- Lookup, `m.find(k)`: `none` stands for `m.end()`, `some v` for `->second`. -/
def find : IntMap → Int → Option Int
  | [], _ => none
  | (k', v) :: rest, k => if k' = k then some v else find rest k

/-- Assignment `m[k] = v`: overwrites the entry of `k` or inserts a new one. -/
def assign : IntMap → Int → Int → IntMap
  | [], k, v => [(k, v)]
  | (k', v') :: rest, k, v =>
    if k' = k then (k, v) :: rest else (k', v') :: assign rest k v

/-- Keys of a map, in storage order. -/
def keys (m : IntMap) : List Int := m.map Prod.fst

/-! ## Global model state and collaborators -/

/-- The part of `openmc::Surface` the filter reads. -/
structure Surface where
  id_ : Int
  deriving DecidableEq, Repr

/-- The part of `openmc::Particle` the filter reads. -/
structure Particle where
  surface : Int
  deriving DecidableEq, Repr

/-- The accumulator `openmc::FilterMatch`: two parallel vectors. -/
structure FilterMatch where
  bins_ : List Int
  weights_ : List Int
  deriving DecidableEq, Repr

/-- Vector access `v[i]` with a signed index; out of bounds is `none`. -/
def index {α : Type} (v : List α) (i : Int) : Option α :=
  if 0 ≤ i then v[i.toNat]? else none

/-! ## The filter -/

/-- Data members of `openmc::SurfaceFilter` (`n_bins_` is inherited from `Filter`). -/
structure SurfaceFilter where
  surfaces_ : List Int
  map_ : IntMap
  n_bins_ : Nat
  deriving DecidableEq, Repr

/-- A newly constructed filter: no bins, empty reverse map. -/
def SurfaceFilter.fresh : SurfaceFilter := { surfaces_ := [], map_ := [], n_bins_ := 0 }

/-- What `fatal_error` was called with, and the filter as it stood at that point. -/
structure Fatal where
  msg : String
  state : SurfaceFilter
  deriving DecidableEq, Repr

/-- The method `SurfaceFilter::from_xml`; `bins` is the array returned by
`get_node_array<int32_t>(node, "bins")`. -/
def from_xml (f : SurfaceFilter) (bins : List Int) : SurfaceFilter :=
  { f with surfaces_ := bins, n_bins_ := bins.length }

/-- The message built in `SurfaceFilter::initialize` for an unknown identifier. -/
def err_msg (s : Int) : String :=
  "Could not find surface " ++ to_string s ++ " specified on tally filter."

/-- First loop of `SurfaceFilter::initialize`: `done` holds the entries already
overwritten with indices, `todo` the entries still to visit.  The result is the
vector after the loop, or the id that was not found together with the vector as
it stands at that point. -/
def resolve (surface_map : IntMap) (done : List Int) : List Int → Except (Int × List Int) (List Int)
  | [] => .ok done
  | s :: rest =>
    match find surface_map s with
    | some k => resolve surface_map (done ++ [k]) rest
    | none => .error (s, done ++ s :: rest)

/-- Second loop of `SurfaceFilter::initialize`, from position `i` on:
`map_[surfaces_[i]] = i`. -/
def populate (map_ : IntMap) : List Int → Nat → IntMap
  | [], _ => map_
  | s :: rest, i => populate (assign map_ s i) rest (i + 1)

/-- The method `SurfaceFilter::initialize`. -/
def initialize_filter (surface_map : IntMap) (f : SurfaceFilter) : Except Fatal SurfaceFilter :=
  match resolve surface_map [] f.surfaces_ with
  | .error (s, v) => .error { msg := err_msg s, state := { f with surfaces_ := v } }
  | .ok v => .ok { f with surfaces_ := v, map_ := populate f.map_ v 0 }

/-- The method `SurfaceFilter::get_all_bins`.  The method is `const`; the filter
is returned next to the accumulator so that both halves of the state are
visible after the call. -/
def get_all_bins (f : SurfaceFilter) (p : Particle) (_estimator : Int) (m : FilterMatch) :
    SurfaceFilter × FilterMatch :=
  match find f.map_ (wrap32 (abs32 p.surface - 1)) with
  | some second =>
    (f, { bins_ := m.bins_ ++ [wrap32 (second + 1)],
          weights_ := m.weights_ ++ [if p.surface < 0 then -1 else 1] })
  | none => (f, m)

/-- The loop of `SurfaceFilter::to_statepoint`: the vector `surface_ids`. -/
def surface_ids (surfaces : List Surface) : List Int → Option (List Int)
  | [] => some []
  | c :: rest =>
    match index surfaces c with
    | some s => (surface_ids surfaces rest).map (fun ids => s.id_ :: ids)
    | none => none

/-- The method `SurfaceFilter::to_statepoint`: the dataset written under the
name "bins" (the call to `Filter::to_statepoint` belongs to the base class). -/
def to_statepoint (surfaces : List Surface) (f : SurfaceFilter) : Option (List Int) :=
  surface_ids surfaces f.surfaces_

/-- The method `SurfaceFilter::text_label`. -/
def text_label (surfaces : List Surface) (f : SurfaceFilter) (bin : Int) : Option String :=
  match index f.surfaces_ (wrap32 (bin - 1)) with
  | some c =>
    match index surfaces c with
    | some s => some ("Surface " ++ to_string s.id_)
    | none => none
  | none => none

/-! ## Specification vocabulary -/

/-- Every identifier of the list is present in the directory. -/
def Resolvable (surface_map : IntMap) (ids : List Int) : Prop :=
  ∀ id ∈ ids, find surface_map id ≠ none

instance (surface_map : IntMap) (ids : List Int) : Decidable (Resolvable surface_map ids) := by
  unfold Resolvable; infer_instance

/-- Consistent directory: each identifier maps to a position inside the surface
array, and the surface stored there carries that identifier in its `id_`. -/
def Consistent (surface_map : IntMap) (surfaces : List Surface) : Prop :=
  ∀ id k, find surface_map id = some k → ∃ s, index surfaces k = some s ∧ s.id_ = id

/-- Executable check of `Consistent`, entry by entry. -/
def consistentCheck (surface_map : IntMap) (surfaces : List Surface) : Bool :=
  surface_map.all fun e =>
    match find surface_map e.1 with
    | some k =>
      match index surfaces k with
      | some s => decide (s.id_ = e.1)
      | none => false
    | none => true

/-- Position of the last occurrence of `k` in a vector, if any. -/
def lastPos (k : Int) : List Int → Option Nat
  | [] => none
  | x :: xs =>
    match lastPos k xs with
    | some j => some (j + 1)
    | none => if x = k then some 0 else none

/-- Well-formed directory: every index the directory maps to is a valid position
of the surface array. -/
def WellFormed (surface_map : IntMap) (surfaces : List Surface) : Prop :=
  ∀ id k, find surface_map id = some k → index surfaces k ≠ none

/-! ## Auxiliary lemmas -/

theorem wrap32_eq_self {x : Int} (h : inInt32 x) : wrap32 x = x := by
  unfold inInt32 at h
  unfold wrap32
  omega

theorem wrap32_abs32_sub_one {s : Int} (h : inInt32 s) : wrap32 (abs32 s - 1) = |s| - 1 := by
  unfold inInt32 at h
  unfold abs32 wrap32
  rcases lt_or_le s 0 with hs | hs
  · rw [if_pos hs, abs_of_neg hs]; omega
  · rw [if_neg (not_lt.mpr hs), abs_of_nonneg hs]; omega

theorem find_assign (m : IntMap) (k v k' : Int) :
    find (assign m k v) k' = if k = k' then some v else find m k' := by
  induction m with
  | nil => simp [assign, find]
  | cons e rest ih =>
    obtain ⟨a, b⟩ := e
    by_cases hak : a = k
    · subst hak
      by_cases hk : a = k' <;> simp [assign, find, hk]
    · by_cases hk : k = k'
      · subst hk
        simp [assign, find, hak, ih]
      · by_cases hak' : a = k'
        · subst hak'
          simp [assign, find, hak, hk]
        · simp [assign, find, hak, hak', hk, ih]

theorem find_mem {m : IntMap} {k v : Int} (h : find m k = some v) : (k, v) ∈ m := by
  induction m with
  | nil => simp [find] at h
  | cons e rest ih =>
    obtain ⟨a, b⟩ := e
    by_cases hak : a = k
    · simp [find, hak] at h
      simp [hak, h]
    · simp [find, hak] at h
      exact List.mem_cons_of_mem _ (ih h)

theorem consistent_of_check {surface_map : IntMap} {surfaces : List Surface}
    (h : consistentCheck surface_map surfaces = true) : Consistent surface_map surfaces := by
  intro id k hk
  have hmem := find_mem hk
  have := (List.all_eq_true.mp h) (id, k) hmem
  simp only [hk] at this
  cases hs : index surfaces k with
  | none => simp [hs] at this
  | some s =>
    simp only [hs, decide_eq_true_eq] at this
    exact ⟨s, rfl, this⟩

/-- The first loop: it succeeds exactly when the visited entries are all present,
and then yields the entries already done followed by the resolved indices. -/
theorem resolve_ok_iff (surface_map : IntMap) (todo done v : List Int) :
    resolve surface_map done todo = .ok v ↔
      ∃ w, v = done ++ w ∧ todo.map (find surface_map) = w.map some := by
  induction todo generalizing done with
  | nil =>
    simp only [resolve, List.map_nil]
    constructor
    · intro h
      refine ⟨[], ?_, rfl⟩
      simpa using (Except.ok.inj h).symm
    · rintro ⟨w, hv, hw⟩
      have : w = [] := by simpa using hw.symm
      subst this
      simp [hv]
  | cons s rest ih =>
    cases hs : find surface_map s with
    | none =>
      simp only [resolve, hs, List.map_cons]
      constructor
      · intro h; cases h
      · rintro ⟨w, _, hw⟩
        cases w with
        | nil => simp at hw
        | cons a w => simp [hs] at hw
    | some k =>
      simp only [resolve, hs, List.map_cons]
      rw [ih]
      constructor
      · rintro ⟨w, hv, hw⟩
        exact ⟨k :: w, by simp [hv], by simp [hw]⟩
      · rintro ⟨w, hv, hw⟩
        cases w with
        | nil => simp at hw
        | cons a w =>
          simp only [List.map_cons, List.cons.injEq, Option.some.injEq] at hw
          exact ⟨w, by simp [hv, hw.1], hw.2⟩

theorem resolve_ok_of_resolvable (surface_map : IntMap) (todo done : List Int)
    (h : Resolvable surface_map todo) :
    ∃ w, resolve surface_map done todo = .ok (done ++ w) ∧
      todo.map (find surface_map) = w.map some := by
  induction todo generalizing done with
  | nil => exact ⟨[], by simp [resolve], rfl⟩
  | cons s rest ih =>
    have hs : find surface_map s ≠ none := h s (List.mem_cons_self _ _)
    obtain ⟨k, hk⟩ := Option.ne_none_iff_exists'.mp hs
    obtain ⟨w, hw, hm⟩ := ih (done ++ [k]) (fun id hid => h id (List.mem_cons_of_mem _ hid))
    exact ⟨k :: w, by simp [resolve, hk, hw], by simp [hk, hm]⟩

theorem resolve_error_of_absent (surface_map : IntMap) (todo done : List Int)
    (h : ¬ Resolvable surface_map todo) :
    ∃ e, resolve surface_map done todo = .error e := by
  cases hr : resolve surface_map done todo with
  | error e => exact ⟨e, rfl⟩
  | ok v =>
    exfalso
    apply h
    obtain ⟨w, _, hw⟩ := (resolve_ok_iff surface_map todo done v).mp hr
    intro id hid hnone
    have : find surface_map id ∈ todo.map (find surface_map) := List.mem_map_of_mem _ hid
    rw [hw, hnone] at this
    simp at this

/-- Outcome of `initialize` in terms of the two loops. -/
theorem initialize_ok_iff (surface_map : IntMap) (f g : SurfaceFilter) :
    initialize_filter surface_map f = .ok g ↔
      ∃ w, f.surfaces_.map (find surface_map) = w.map some ∧
        g = { f with surfaces_ := w, map_ := populate f.map_ w 0 } := by
  unfold initialize_filter
  cases hr : resolve surface_map [] f.surfaces_ with
  | error e =>
    obtain ⟨s, v⟩ := e
    constructor
    · intro h; cases h
    · rintro ⟨w, hw, _⟩
      have := (resolve_ok_iff surface_map f.surfaces_ [] w).mpr ⟨w, by simp, hw⟩
      rw [hr] at this
      cases this
  | ok v =>
    obtain ⟨w, hv, hw⟩ := (resolve_ok_iff surface_map f.surfaces_ [] v).mp hr
    simp only [List.nil_append] at hv
    subst hv
    constructor
    · intro h
      exact ⟨v, hw, (Except.ok.inj h).symm⟩
    · rintro ⟨w, hw2, hg⟩
      have hvw : v = w := by
        have := hw.symm.trans hw2
        exact List.map_injective_iff.mpr (Option.some_injective _) this
      subst hvw
      rw [hg]

theorem initialize_ok_of_resolvable (surface_map : IntMap) (f : SurfaceFilter)
    (h : Resolvable surface_map f.surfaces_) :
    ∃ w, f.surfaces_.map (find surface_map) = w.map some ∧
      initialize_filter surface_map f =
        .ok { f with surfaces_ := w, map_ := populate f.map_ w 0 } := by
  obtain ⟨w, _, hm⟩ := resolve_ok_of_resolvable surface_map f.surfaces_ [] h
  exact ⟨w, hm, (initialize_ok_iff surface_map f _).mpr ⟨w, hm, rfl⟩⟩

theorem getElem?_of_map_find {surface_map : IntMap} {ids w : List Int}
    (h : ids.map (find surface_map) = w.map some) (i : Nat) (id : Int)
    (hi : ids[i]? = some id) : w[i]? = find surface_map id := by
  have h1 : (ids.map (find surface_map))[i]? = (w.map some)[i]? := by rw [h]
  rw [List.getElem?_map, List.getElem?_map, hi] at h1
  cases hw : w[i]? with
  | none => rw [hw] at h1; simp at h1
  | some k =>
    rw [hw] at h1
    simpa using h1.symm

theorem surface_ids_of_consistent {surface_map : IntMap} {surfaces : List Surface}
    (hcons : Consistent surface_map surfaces) (ids w : List Int)
    (h : ids.map (find surface_map) = w.map some) :
    surface_ids surfaces w = some ids := by
  induction ids generalizing w with
  | nil =>
    have : w = [] := by simpa using h.symm
    subst this
    rfl
  | cons id rest ih =>
    cases w with
    | nil => simp at h
    | cons k w =>
      simp only [List.map_cons, List.cons.injEq] at h
      obtain ⟨s, hs, hid⟩ := hcons id k h.1
      simp [surface_ids, hs, ih w h.2, hid]

theorem find_populate (m : IntMap) (l : List Int) (i : Nat) (k : Int) :
    find (populate m l i) k =
      match lastPos k l with
      | some j => some ((i + j : Nat) : Int)
      | none => find m k := by
  induction l generalizing m i with
  | nil => simp [populate, lastPos]
  | cons x xs ih =>
    simp only [populate, lastPos]
    rw [ih]
    cases hl : lastPos k xs with
    | some j =>
      simp only [Option.some.injEq]
      congr 1
      omega
    | none =>
      simp only [find_assign]
      by_cases hx : x = k <;> simp [hx]

theorem lastPos_eq_none_iff (k : Int) (l : List Int) : lastPos k l = none ↔ k ∉ l := by
  induction l with
  | nil => simp [lastPos]
  | cons x xs ih =>
    simp only [lastPos, List.mem_cons, not_or]
    cases hl : lastPos k xs with
    | some j =>
      have : k ∈ xs := by
        by_contra hk
        rw [ih.mpr hk] at hl
        cases hl
      simp [this]
    | none =>
      have hk : k ∉ xs := ih.mp hl
      by_cases hx : x = k
      · simp [hx]
      · simp [hx, hk, Ne.symm hx]

theorem lastPos_some {k : Int} {l : List Int} {j : Nat} (h : lastPos k l = some j) :
    l[j]? = some k ∧ ∀ q, j < q → l[q]? ≠ some k := by
  induction l generalizing j with
  | nil => simp [lastPos] at h
  | cons x xs ih =>
    simp only [lastPos] at h
    cases hl : lastPos k xs with
    | some j0 =>
      rw [hl] at h
      simp only [Option.some.injEq] at h
      subst h
      obtain ⟨h1, h2⟩ := ih hl
      refine ⟨by simpa using h1, ?_⟩
      intro q hq
      obtain ⟨q0, rfl⟩ : ∃ q0, q = q0 + 1 := ⟨q - 1, by omega⟩
      simpa using h2 q0 (by omega)
    | none =>
      rw [hl] at h
      by_cases hx : x = k
      · simp only [hx, if_true, Option.some.injEq] at h
        subst h
        refine ⟨by simp [hx], ?_⟩
        intro q hq
        obtain ⟨q0, rfl⟩ : ∃ q0, q = q0 + 1 := ⟨q - 1, by omega⟩
        simp only [List.getElem?_cons_succ]
        intro hq0
        exact (lastPos_eq_none_iff k xs).mp hl (List.getElem?_mem hq0)
      · simp [hx] at h

theorem lastPos_lt {k : Int} {l : List Int} {j : Nat} (h : lastPos k l = some j) :
    j < l.length := by
  have := (lastPos_some h).1
  exact (List.getElem?_eq_some_iff.mp this).1

/-- The reverse map of a filter initialised from a freshly configured state:
each index is sent to the position of its last occurrence in the bins. -/
theorem find_map_of_initialized {surface_map : IntMap} {ids : List Int} {f : SurfaceFilter}
    (hinit : initialize_filter surface_map (from_xml SurfaceFilter.fresh ids) = .ok f)
    (k : Int) :
    find f.map_ k = (lastPos k f.surfaces_).map (fun j => (j : Int)) := by
  obtain ⟨w, _, hf⟩ := (initialize_ok_iff surface_map _ f).mp hinit
  subst hf
  simp only [from_xml, SurfaceFilter.fresh]
  rw [find_populate]
  cases lastPos k w with
  | some j => simp
  | none => simp [find]

theorem length_of_initialized {surface_map : IntMap} {f0 : SurfaceFilter} {ids : List Int}
    {f : SurfaceFilter}
    (hinit : initialize_filter surface_map (from_xml f0 ids) = .ok f) :
    f.surfaces_.length = ids.length ∧ f.n_bins_ = ids.length ∧
      ids.map (find surface_map) = f.surfaces_.map some := by
  obtain ⟨w, hm, hf⟩ := (initialize_ok_iff surface_map _ f).mp hinit
  subst hf
  refine ⟨?_, rfl, hm⟩
  have := congrArg List.length hm
  simpa [from_xml] using this.symm

/-- The method `get_all_bins` with the lookup key written as `|surface| - 1`. -/
theorem get_all_bins_eq (f : SurfaceFilter) (p : Particle) (est : Int) (m : FilterMatch)
    (hs : inInt32 p.surface) :
    get_all_bins f p est m =
      match find f.map_ (|p.surface| - 1) with
      | some second =>
        (f, { bins_ := m.bins_ ++ [wrap32 (second + 1)],
              weights_ := m.weights_ ++ [if p.surface < 0 then -1 else 1] })
      | none => (f, m) := by
  unfold get_all_bins
  rw [wrap32_abs32_sub_one hs]

/-- In an initialised filter of representable size, a hit of the reverse map is
the last position of the key, and adding one to it does not overflow. -/
theorem found_of_initialized {surface_map : IntMap} {ids : List Int} {f : SurfaceFilter}
    (hinit : initialize_filter surface_map (from_xml SurfaceFilter.fresh ids) = .ok f)
    (hsize : ids.length < 2147483648) {k pos : Int} (hfound : find f.map_ k = some pos) :
    ∃ j : Nat, pos = (j : Int) ∧ lastPos k f.surfaces_ = some j ∧ j < ids.length ∧
      wrap32 (pos + 1) = (j : Int) + 1 := by
  rw [find_map_of_initialized hinit] at hfound
  cases hl : lastPos k f.surfaces_ with
  | none => rw [hl] at hfound; simp at hfound
  | some j =>
    rw [hl] at hfound
    have hfound : (j : Int) = pos := by simpa using hfound
    have hlt : j < ids.length := by
      have := lastPos_lt hl
      rwa [(length_of_initialized hinit).1] at this
    refine ⟨j, hfound.symm, rfl, hlt, ?_⟩
    rw [← hfound]
    apply wrap32_eq_self
    unfold inInt32
    omega

theorem index_natCast {α : Type} (v : List α) (j : Nat) : index v (j : Int) = v[j]? := by
  simp [index]

/-- The method `text_label` at the 1-based position `j + 1` of a filter whose
entry `j` is a valid position of the surface array. -/
theorem text_label_succ (surfaces : List Surface) (f : SurfaceFilter) (j : Nat) (c : Int)
    (s : Surface) (hj : (j : Int) + 1 < 2147483648) (hc : f.surfaces_[j]? = some c)
    (hsurf : index surfaces c = some s) :
    text_label surfaces f ((j : Int) + 1) = some ("Surface " ++ to_string s.id_) := by
  unfold text_label
  have hw : wrap32 ((j : Int) + 1 - 1) = (j : Int) := by
    rw [wrap32_eq_self]
    · omega
    · unfold inInt32; omega
  rw [hw, index_natCast, hc]
  simp only [hsurf]

/-- An index that does not occur in the bins of an initialised filter is not a
key of its reverse map, and `get_all_bins` returns its arguments unchanged. -/
theorem get_all_bins_absent {surface_map : IntMap} {ids : List Int} {f : SurfaceFilter}
    (hinit : initialize_filter surface_map (from_xml SurfaceFilter.fresh ids) = .ok f)
    (p : Particle) (est : Int) (m : FilterMatch) (hs : inInt32 p.surface)
    (hnot : |p.surface| - 1 ∉ f.surfaces_) : get_all_bins f p est m = (f, m) := by
  have hnone : find f.map_ (|p.surface| - 1) = none := by
    rw [find_map_of_initialized hinit, (lastPos_eq_none_iff _ _).mpr hnot]
    rfl
  rw [get_all_bins_eq f p est m hs, hnone]

theorem wellFormed_of_entries {surface_map : IntMap} {surfaces : List Surface}
    (h : ∀ e ∈ surface_map, index surfaces e.2 ≠ none) : WellFormed surface_map surfaces :=
  fun _ _ hk => h _ (find_mem hk)

theorem resolvable_of_map_find {surface_map : IntMap} {ids w : List Int}
    (h : ids.map (find surface_map) = w.map some) : Resolvable surface_map ids := by
  intro id hid hnone
  have : find surface_map id ∈ ids.map (find surface_map) := List.mem_map_of_mem _ hid
  rw [h, hnone] at this
  simp at this

/-- Shape of a failing first loop: it stops at the first identifier `s` that is
absent; the entries before it have been overwritten with their indices, `s` and
the entries after it are as configured. -/
theorem resolve_error_shape (surface_map : IntMap) (todo done : List Int) (s : Int)
    (v : List Int) (h : resolve surface_map done todo = .error (s, v)) :
    ∃ pre post w, todo = pre ++ s :: post ∧ pre.map (find surface_map) = w.map some ∧
      find surface_map s = none ∧ v = done ++ w ++ s :: post := by
  induction todo generalizing done with
  | nil => simp [resolve] at h
  | cons x rest ih =>
    cases hx : find surface_map x with
    | none =>
      simp only [resolve, hx, Except.error.injEq, Prod.mk.injEq] at h
      obtain ⟨h1, h2⟩ := h
      subst h1
      exact ⟨[], rest, [], by simp, by simp, hx, by simp [h2]⟩
    | some k =>
      simp only [resolve, hx] at h
      obtain ⟨pre, post, w, h1, h2, h3, h4⟩ := ih (done ++ [k]) h
      exact ⟨x :: pre, post, k :: w, by simp [h1], by simp [hx, h2], h3, by simp [h4]⟩

/-- Shape of a failing `initialize`. -/
theorem initialize_error_shape (surface_map : IntMap) (f : SurfaceFilter) (e : Fatal)
    (h : initialize_filter surface_map f = .error e) :
    ∃ pre s post w, f.surfaces_ = pre ++ s :: post ∧
      pre.map (find surface_map) = w.map some ∧ find surface_map s = none ∧
      e = { msg := err_msg s, state := { f with surfaces_ := w ++ s :: post } } := by
  unfold initialize_filter at h
  cases hr : resolve surface_map [] f.surfaces_ with
  | ok v => rw [hr] at h; cases h
  | error q =>
    obtain ⟨s, v⟩ := q
    rw [hr] at h
    obtain ⟨pre, post, w, h1, h2, h3, h4⟩ := resolve_error_shape surface_map _ _ s v hr
    refine ⟨pre, s, post, w, h1, h2, h3, ?_⟩
    simp only [List.nil_append] at h4
    subst h4
    exact (Except.error.inj h).symm

theorem initialize_error_of_absent (surface_map : IntMap) (f : SurfaceFilter)
    (h : ¬ Resolvable surface_map f.surfaces_) :
    ∃ e, initialize_filter surface_map f = .error e := by
  obtain ⟨q, hq⟩ := resolve_error_of_absent surface_map f.surfaces_ [] h
  obtain ⟨s, v⟩ := q
  exact ⟨_, by unfold initialize_filter; rw [hq]⟩

/-- The loop of `to_statepoint` stays inside the surface array when every entry
it visits is a valid position. -/
theorem surface_ids_total (surfaces : List Surface) (l : List Int)
    (h : ∀ c ∈ l, index surfaces c ≠ none) :
    ∃ out, surface_ids surfaces l = some out ∧ out.length = l.length := by
  induction l with
  | nil => exact ⟨[], rfl, rfl⟩
  | cons c rest ih =>
    obtain ⟨out, ho, hlen⟩ := ih (fun c hc => h c (List.mem_cons_of_mem _ hc))
    obtain ⟨sf, hsf⟩ := Option.ne_none_iff_exists'.mp (h c (List.mem_cons_self _ _))
    exact ⟨sf.id_ :: out, by simp [surface_ids, hsf, ho], by simp [hlen]⟩

theorem abs32_neg (s : Int) : abs32 (-s) = abs32 s := by
  unfold abs32
  rcases lt_trichotomy s 0 with h | h | h
  · rw [if_neg (by omega), if_pos h]
  · subst h; rfl
  · rw [if_pos (by omega), if_neg (by omega)]
    simp

theorem mem_keys_assign (m : IntMap) (k v k' : Int) :
    k' ∈ keys (assign m k v) ↔ k' = k ∨ k' ∈ keys m := by
  induction m with
  | nil => simp [assign, keys]
  | cons e rest ih =>
    obtain ⟨a, b⟩ := e
    unfold keys at ih
    by_cases hak : a = k
    · subst hak
      simp [assign, keys]
    · simp only [assign, hak, if_false, keys, List.map_cons, List.mem_cons, ih]
      tauto

theorem nodup_keys_assign (m : IntMap) (k v : Int) (h : (keys m).Nodup) :
    (keys (assign m k v)).Nodup := by
  induction m with
  | nil => simp [assign, keys]
  | cons e rest ih =>
    obtain ⟨a, b⟩ := e
    have hcons : a ∉ keys rest ∧ (keys rest).Nodup := by simpa [keys] using h
    by_cases hak : a = k
    · subst hak
      simpa [assign, keys] using h
    · have hnot : a ∉ keys (assign rest k v) := by
        rw [mem_keys_assign]
        rintro (h1 | h1)
        · exact hak h1
        · exact hcons.1 h1
      have hnd := ih hcons.2
      unfold keys at hnot hnd
      simp only [assign, hak, if_false, keys, List.map_cons, List.nodup_cons]
      exact ⟨hnot, hnd⟩

theorem mem_keys_populate (m : IntMap) (l : List Int) (i : Nat) (k : Int) :
    k ∈ keys (populate m l i) ↔ k ∈ l ∨ k ∈ keys m := by
  induction l generalizing m i with
  | nil => simp [populate]
  | cons x xs ih =>
    simp only [populate, ih, mem_keys_assign, List.mem_cons]
    tauto

theorem nodup_keys_populate (m : IntMap) (l : List Int) (i : Nat) (h : (keys m).Nodup) :
    (keys (populate m l i)).Nodup := by
  induction l generalizing m i with
  | nil => simpa [populate] using h
  | cons x xs ih => exact ih _ _ (nodup_keys_assign m x i h)

theorem find_of_mem_of_nodup {m : IntMap} {k v : Int} (hnd : (keys m).Nodup)
    (hmem : (k, v) ∈ m) : find m k = some v := by
  induction m with
  | nil => simp at hmem
  | cons e rest ih =>
    obtain ⟨a, b⟩ := e
    have hcons : a ∉ keys rest ∧ (keys rest).Nodup := by simpa [keys] using hnd
    rcases List.mem_cons.mp hmem with h | h
    · cases h
      simp [find]
    · have hne : a ≠ k := by
        rintro rfl
        exact hcons.1 (List.mem_map_of_mem Prod.fst h)
      simp only [find, hne, if_false]
      exact ih hcons.2 h

theorem find_ne_none_iff_mem_keys (m : IntMap) (k : Int) : find m k ≠ none ↔ k ∈ keys m := by
  induction m with
  | nil => simp [find, keys]
  | cons e rest ih =>
    obtain ⟨a, b⟩ := e
    unfold keys at ih
    by_cases hak : a = k
    · simp [find, keys, hak]
    · simp only [find, hak, if_false, ih, keys, List.map_cons, List.mem_cons]
      constructor
      · exact Or.inr
      · rintro (h | h)
        · exact absurd h.symm hak
        · exact h

/-! ## Configuration and initialisation -/

/-- C1: when every configured identifier is present in the directory,
`from_xml` followed by `initialize` succeeds, the bin count is the number of
identifiers, and the stored bins are the resolved indices, position by
position. -/
theorem initialize_resolves_in_order (surface_map : IntMap) (f0 : SurfaceFilter)
    (ids : List Int) (hres : Resolvable surface_map ids) :
    ∃ f, initialize_filter surface_map (from_xml f0 ids) = .ok f ∧
      f.n_bins_ = ids.length ∧ f.surfaces_.length = ids.length ∧
      ∀ (i : Nat) (id : Int), ids[i]? = some id → find surface_map id = f.surfaces_[i]? := by
  obtain ⟨w, hm, hok⟩ := initialize_ok_of_resolvable surface_map (from_xml f0 ids) hres
  refine ⟨_, hok, rfl, ?_, ?_⟩
  · have := congrArg List.length hm
    simpa [from_xml] using this.symm
  · intro i id hi
    exact (getElem?_of_map_find hm i id hi).symm

theorem initialize_resolves_in_order_witness :
    ∃ f, initialize_filter [(5, 3), (9, 7)] (from_xml SurfaceFilter.fresh [9, 5, 9]) = .ok f ∧
      f.n_bins_ = [9, 5, 9].length ∧ f.surfaces_.length = [9, 5, 9].length ∧
      ∀ (i : Nat) (id : Int), [9, 5, 9][i]? = some id →
        find [(5, 3), (9, 7)] id = f.surfaces_[i]? :=
  initialize_resolves_in_order [(5, 3), (9, 7)] SurfaceFilter.fresh [9, 5, 9] (by decide)

/-- C2: `initialize` raises the fatal error exactly when some configured
identifier is absent from the directory, and at the moment it raises the reverse
map is the one the filter had before the call (empty for a freshly configured
filter). -/
theorem initialize_fatal_iff_absent (surface_map : IntMap) (f : SurfaceFilter) :
    ((∃ e, initialize_filter surface_map f = .error e) ↔
        ∃ id ∈ f.surfaces_, find surface_map id = none) ∧
      (∀ e, initialize_filter surface_map f = .error e → e.state.map_ = f.map_) ∧
      (∀ e ids, f = from_xml SurfaceFilter.fresh ids →
        initialize_filter surface_map f = .error e → e.state.map_ = []) := by
  have key : ∀ e, initialize_filter surface_map f = .error e → e.state.map_ = f.map_ := by
    intro e he
    unfold initialize_filter at he
    cases hr : resolve surface_map [] f.surfaces_ with
    | error p =>
      obtain ⟨s, v⟩ := p
      rw [hr] at he
      cases he
      rfl
    | ok v =>
      rw [hr] at he
      cases he
  refine ⟨⟨?_, ?_⟩, key, ?_⟩
  · rintro ⟨e, he⟩
    by_contra hno
    have hres : Resolvable surface_map f.surfaces_ := by
      intro id hid hnone
      exact hno ⟨id, hid, hnone⟩
    obtain ⟨w, _, hok⟩ := initialize_ok_of_resolvable surface_map f hres
    rw [hok] at he
    cases he
  · rintro ⟨id, hid, hnone⟩
    have hnr : ¬ Resolvable surface_map f.surfaces_ := fun h => h id hid hnone
    obtain ⟨p, hp⟩ := resolve_error_of_absent surface_map f.surfaces_ [] hnr
    obtain ⟨s, v⟩ := p
    exact ⟨_, by unfold initialize_filter; rw [hp]⟩
  · intro e ids hf he
    rw [key e he, hf]
    rfl

theorem initialize_fatal_iff_absent_witness :
    (∃ e, initialize_filter [(5, 3)] (from_xml SurfaceFilter.fresh [5, 6]) = .error e) ∧
      ∀ e, initialize_filter [(5, 3)] (from_xml SurfaceFilter.fresh [5, 6]) = .error e →
        e.state.map_ = [] :=
  ⟨(initialize_fatal_iff_absent [(5, 3)] (from_xml SurfaceFilter.fresh [5, 6])).1.mpr
      ⟨6, by decide, by decide⟩,
    fun e he =>
      (initialize_fatal_iff_absent [(5, 3)] (from_xml SurfaceFilter.fresh [5, 6])).2.2 e [5, 6]
        rfl he⟩

/-! ## Persistence -/

/-- C3: round trip.  Against a consistent directory, for resolvable and
pairwise distinct identifiers, `to_statepoint` after `from_xml` and `initialize`
writes exactly the configured identifiers, in the configured order. -/
theorem statepoint_roundtrip_distinct (surface_map : IntMap) (surfaces : List Surface)
    (f0 : SurfaceFilter) (ids : List Int) (hcons : Consistent surface_map surfaces)
    (hres : Resolvable surface_map ids) (_hdistinct : ids.Nodup) :
    ∃ f, initialize_filter surface_map (from_xml f0 ids) = .ok f ∧
      to_statepoint surfaces f = some ids := by
  obtain ⟨w, hm, hok⟩ := initialize_ok_of_resolvable surface_map (from_xml f0 ids) hres
  exact ⟨_, hok, surface_ids_of_consistent hcons ids w hm⟩

theorem statepoint_roundtrip_distinct_witness :
    ∃ f, initialize_filter [(5, 1), (9, 0)] (from_xml SurfaceFilter.fresh [5, 9]) = .ok f ∧
      to_statepoint [⟨9⟩, ⟨5⟩] f = some [5, 9] :=
  statepoint_roundtrip_distinct [(5, 1), (9, 0)] [⟨9⟩, ⟨5⟩] SurfaceFilter.fresh [5, 9]
    (consistent_of_check (by decide)) (by decide) (by decide)

/-! ## Matching -/

/-- C4: in an initialised filter, when the surface index `|s| - 1` is found in
the reverse map at position `pos`, `get_all_bins` appends exactly `pos + 1` to
the bins of the accumulator and exactly one weight to its weights: `1` for a
positive indicator, `-1` for a negative one. -/
theorem get_all_bins_found (surface_map : IntMap) (ids : List Int) (f : SurfaceFilter)
    (p : Particle) (est : Int) (m : FilterMatch) (pos : Int)
    (hinit : initialize_filter surface_map (from_xml SurfaceFilter.fresh ids) = .ok f)
    (hsize : ids.length < 2147483648) (hs : inInt32 p.surface)
    (hfound : find f.map_ (|p.surface| - 1) = some pos) :
    (get_all_bins f p est m).2.bins_ = m.bins_ ++ [pos + 1] ∧
      ∃ w, (get_all_bins f p est m).2.weights_ = m.weights_ ++ [w] ∧
        (0 < p.surface → w = 1) ∧ (p.surface < 0 → w = -1) := by
  obtain ⟨j, hj, _, _, hw⟩ := found_of_initialized hinit hsize hfound
  subst hj
  rw [get_all_bins_eq f p est m hs, hfound]
  refine ⟨by simp only [hw], _, rfl, ?_, ?_⟩
  · intro h
    simp [not_lt.mpr h.le]
  · intro h
    simp [h]

theorem get_all_bins_found_witness :
    ((get_all_bins ⟨[3, 7], [(3, 0), (7, 1)], 2⟩ ⟨4⟩ 0 ⟨[], []⟩).2.bins_ = [1] ∧
      ∃ w, (get_all_bins ⟨[3, 7], [(3, 0), (7, 1)], 2⟩ ⟨4⟩ 0 ⟨[], []⟩).2.weights_ = [w] ∧
        ((0 : Int) < 4 → w = 1) ∧ ((4 : Int) < 0 → w = -1)) ∧
    ((get_all_bins ⟨[3, 7], [(3, 0), (7, 1)], 2⟩ ⟨-4⟩ 0 ⟨[], []⟩).2.bins_ = [1] ∧
      ∃ w, (get_all_bins ⟨[3, 7], [(3, 0), (7, 1)], 2⟩ ⟨-4⟩ 0 ⟨[], []⟩).2.weights_ = [w] ∧
        ((0 : Int) < -4 → w = 1) ∧ ((-4 : Int) < 0 → w = -1)) ∧
    ((get_all_bins ⟨[3, 7], [(3, 0), (7, 1)], 2⟩ ⟨8⟩ 0 ⟨[], []⟩).2.bins_ = [2] ∧
      ∃ w, (get_all_bins ⟨[3, 7], [(3, 0), (7, 1)], 2⟩ ⟨8⟩ 0 ⟨[], []⟩).2.weights_ = [w] ∧
        ((0 : Int) < 8 → w = 1) ∧ ((8 : Int) < 0 → w = -1)) :=
  ⟨get_all_bins_found [(10, 3), (20, 7)] [10, 20] ⟨[3, 7], [(3, 0), (7, 1)], 2⟩ ⟨4⟩ 0 ⟨[], []⟩ 0
      rfl (by decide) (by decide) rfl,
    get_all_bins_found [(10, 3), (20, 7)] [10, 20] ⟨[3, 7], [(3, 0), (7, 1)], 2⟩ ⟨-4⟩ 0 ⟨[], []⟩ 0
      rfl (by decide) (by decide) rfl,
    get_all_bins_found [(10, 3), (20, 7)] [10, 20] ⟨[3, 7], [(3, 0), (7, 1)], 2⟩ ⟨8⟩ 0 ⟨[], []⟩ 1
      rfl (by decide) (by decide) rfl⟩

/-- C5: in an initialised filter, an indicator whose surface index `|s| - 1`
does not occur in the bins contributes nothing: the call returns, and the
accumulator (bins and weights) is returned unchanged. -/
theorem get_all_bins_untracked (surface_map : IntMap) (ids : List Int) (f : SurfaceFilter)
    (p : Particle) (est : Int) (m : FilterMatch)
    (hinit : initialize_filter surface_map (from_xml SurfaceFilter.fresh ids) = .ok f)
    (hs : inInt32 p.surface) (hnot : |p.surface| - 1 ∉ f.surfaces_) :
    (get_all_bins f p est m).2 = m ∧
      (get_all_bins f p est m).2.bins_ = m.bins_ ∧
      (get_all_bins f p est m).2.weights_ = m.weights_ := by
  rw [get_all_bins_absent hinit p est m hs hnot]
  exact ⟨rfl, rfl, rfl⟩

theorem get_all_bins_untracked_witness :
    (get_all_bins ⟨[3, 7], [(3, 0), (7, 1)], 2⟩ ⟨9⟩ 0 ⟨[], []⟩).2 = ⟨[], []⟩ ∧
      (get_all_bins ⟨[3, 7], [(3, 0), (7, 1)], 2⟩ ⟨9⟩ 0 ⟨[], []⟩).2.bins_ = [] ∧
      (get_all_bins ⟨[3, 7], [(3, 0), (7, 1)], 2⟩ ⟨9⟩ 0 ⟨[], []⟩).2.weights_ = [] :=
  get_all_bins_untracked [(10, 3), (20, 7)] [10, 20] ⟨[3, 7], [(3, 0), (7, 1)], 2⟩ ⟨9⟩ 0
    ⟨[], []⟩ rfl (by decide) (by decide)

/-- C6: in a filter initialised against a surface directory (whose indices, being
positions of the surface array, are not negative), the crossing indicator `0` is
a non-match: nothing is appended to the bins and nothing to the weights. -/
theorem get_all_bins_zero (surface_map : IntMap) (ids : List Int) (f : SurfaceFilter)
    (p : Particle) (est : Int) (m : FilterMatch)
    (hdir : ∀ e ∈ surface_map, 0 ≤ e.2)
    (hinit : initialize_filter surface_map (from_xml SurfaceFilter.fresh ids) = .ok f)
    (hzero : p.surface = 0) :
    (get_all_bins f p est m).2.bins_ = m.bins_ ∧
      (get_all_bins f p est m).2.weights_ = m.weights_ := by
  have hs : inInt32 p.surface := by rw [hzero]; decide
  have hnot : |p.surface| - 1 ∉ f.surfaces_ := by
    intro hmem
    have hmap := (length_of_initialized hinit).2.2
    have : some (|p.surface| - 1) ∈ f.surfaces_.map some := List.mem_map_of_mem _ hmem
    rw [← hmap] at this
    obtain ⟨id, _, hid⟩ := List.mem_map.mp this
    have := hdir _ (find_mem hid)
    rw [hzero] at this
    simp at this
  rw [get_all_bins_absent hinit p est m hs hnot]
  exact ⟨rfl, rfl⟩

theorem get_all_bins_zero_witness :
    (get_all_bins ⟨[0, 7], [(0, 0), (7, 1)], 2⟩ ⟨0⟩ 0 ⟨[4], [1]⟩).2.bins_ = [4] ∧
      (get_all_bins ⟨[0, 7], [(0, 0), (7, 1)], 2⟩ ⟨0⟩ 0 ⟨[4], [1]⟩).2.weights_ = [1] :=
  get_all_bins_zero [(10, 0), (20, 7)] [10, 20] ⟨[0, 7], [(0, 0), (7, 1)], 2⟩ ⟨0⟩ 0
    ⟨[4], [1]⟩ (by decide) rfl rfl

/-- C7: duplicate shadowing.  In an initialised filter, for an indicator whose
surface index `|s| - 1` occurs in the bins, `get_all_bins` reports the 1-based
position of the last occurrence of that index, and no other position. -/
theorem get_all_bins_last_occurrence (surface_map : IntMap) (ids : List Int)
    (f : SurfaceFilter) (p : Particle) (est : Int) (m : FilterMatch)
    (hinit : initialize_filter surface_map (from_xml SurfaceFilter.fresh ids) = .ok f)
    (hsize : ids.length < 2147483648) (hs : inInt32 p.surface)
    (hocc : |p.surface| - 1 ∈ f.surfaces_) :
    ∃ j : Nat, f.surfaces_[j]? = some (|p.surface| - 1) ∧
      (∀ q : Nat, j < q → f.surfaces_[q]? ≠ some (|p.surface| - 1)) ∧
      (get_all_bins f p est m).2.bins_ = m.bins_ ++ [(j : Int) + 1] ∧
      ∀ q : Nat, q < j → (get_all_bins f p est m).2.bins_ ≠ m.bins_ ++ [(q : Int) + 1] := by
  cases hl : lastPos (|p.surface| - 1) f.surfaces_ with
  | none => exact absurd hocc ((lastPos_eq_none_iff _ _).mp hl)
  | some j =>
    have hfound : find f.map_ (|p.surface| - 1) = some (j : Int) := by
      rw [find_map_of_initialized hinit, hl]
      rfl
    obtain ⟨j0, hj0, _, _, hw⟩ := found_of_initialized hinit hsize hfound
    have hjj : j0 = j := by exact_mod_cast hj0.symm
    subst hjj
    have hbins : (get_all_bins f p est m).2.bins_ = m.bins_ ++ [(j0 : Int) + 1] := by
      rw [get_all_bins_eq f p est m hs, hfound]
      simp only [hw]
    refine ⟨j0, (lastPos_some hl).1, (lastPos_some hl).2, hbins, ?_⟩
    intro q hq hcontra
    rw [hbins] at hcontra
    have := List.append_cancel_left hcontra
    simp only [List.cons.injEq, and_true] at this
    omega

theorem get_all_bins_last_occurrence_witness :
    ∃ j : Nat, [(3 : Int), 3][j]? = some 3 ∧
      (∀ q : Nat, j < q → [(3 : Int), 3][q]? ≠ some 3) ∧
      (get_all_bins ⟨[3, 3], [(3, 1)], 2⟩ ⟨4⟩ 0 ⟨[], []⟩).2.bins_ = [] ++ [(j : Int) + 1] ∧
      ∀ q : Nat, q < j →
        (get_all_bins ⟨[3, 3], [(3, 1)], 2⟩ ⟨4⟩ 0 ⟨[], []⟩).2.bins_ ≠ [] ++ [(q : Int) + 1] :=
  get_all_bins_last_occurrence [(10, 3)] [10, 10] ⟨[3, 3], [(3, 1)], 2⟩ ⟨4⟩ 0 ⟨[], []⟩
    rfl (by decide) (by decide) (by decide)

/-! ## Labels -/

/-- C8: against a consistent directory and for resolvable identifiers,
`initialize` succeeds and, for every 1-based bin position `b` with
`1 ≤ b ≤ n_bins_`, `text_label b` is "Surface " followed by the decimal
rendering of the configured identifier at position `b - 1`. -/
theorem text_label_original_id (surface_map : IntMap) (surfaces : List Surface)
    (f0 : SurfaceFilter) (ids : List Int) (hcons : Consistent surface_map surfaces)
    (hres : Resolvable surface_map ids) :
    ∃ f, initialize_filter surface_map (from_xml f0 ids) = .ok f ∧
      ∀ b : Int, 1 ≤ b → b ≤ f.n_bins_ → inInt32 b →
        ∃ id, ids[(b - 1).toNat]? = some id ∧
          text_label surfaces f b = some ("Surface " ++ to_string id) := by
  obtain ⟨w, hm, hok⟩ := initialize_ok_of_resolvable surface_map (from_xml f0 ids) hres
  refine ⟨_, hok, ?_⟩
  intro b hb1 hb2 hb
  obtain ⟨hlen, hn, _⟩ := length_of_initialized hok
  rw [hn] at hb2
  obtain ⟨j, rfl⟩ : ∃ j : Nat, b = (j : Int) + 1 := ⟨(b - 1).toNat, by omega⟩
  have hjlt : j < ids.length := by omega
  have hid : ids[j]? = some ids[j] := List.getElem?_eq_getElem hjlt
  have hc : w[j]? = find surface_map ids[j] := getElem?_of_map_find hm j _ hid
  have hne : find surface_map ids[j] ≠ none := hres _ (List.getElem_mem hjlt)
  obtain ⟨c, hfc⟩ := Option.ne_none_iff_exists'.mp hne
  obtain ⟨sf, hsf, hsid⟩ := hcons _ c hfc
  refine ⟨ids[j], by simp [hid], ?_⟩
  rw [← hsid]
  refine text_label_succ surfaces _ j c sf ?_ (by rw [← hfc]; exact hc) hsf
  unfold inInt32 at hb
  omega

theorem text_label_original_id_witness :
    (∃ f, initialize_filter [(5, 3)] (from_xml SurfaceFilter.fresh [5]) = .ok f ∧
      ∀ b : Int, 1 ≤ b → b ≤ f.n_bins_ → inInt32 b →
        ∃ id, [(5 : Int)][(b - 1).toNat]? = some id ∧
          text_label [⟨1⟩, ⟨2⟩, ⟨4⟩, ⟨5⟩] f b = some ("Surface " ++ to_string id)) ∧
      text_label [⟨1⟩, ⟨2⟩, ⟨4⟩, ⟨5⟩] ⟨[3], [(3, 0)], 1⟩ 1 = some "Surface 5" :=
  ⟨text_label_original_id [(5, 3)] [⟨1⟩, ⟨2⟩, ⟨4⟩, ⟨5⟩] SurfaceFilter.fresh [5]
      (consistent_of_check (by decide)) (by decide),
    by decide⟩

/-- C9: the 1-based offset agrees between `get_all_bins` and `text_label`.  In a
filter initialised against a consistent directory, whenever `get_all_bins`
contributes a bin `b` for the indicator `s`, `b` lies in `[1, n_bins_]`, the
index stored at position `b - 1` of the bins is `|s| - 1`, and `text_label b` is
"Surface " followed by the identifier of the surface at index `|s| - 1`. -/
theorem match_label_same_offset (surface_map : IntMap) (surfaces : List Surface)
    (ids : List Int) (f : SurfaceFilter) (p : Particle) (est : Int) (m : FilterMatch) (b : Int)
    (hcons : Consistent surface_map surfaces)
    (hinit : initialize_filter surface_map (from_xml SurfaceFilter.fresh ids) = .ok f)
    (hsize : ids.length < 2147483648) (hs : inInt32 p.surface)
    (hcontrib : (get_all_bins f p est m).2.bins_ = m.bins_ ++ [b]) :
    1 ≤ b ∧ b ≤ f.n_bins_ ∧ index f.surfaces_ (b - 1) = some (|p.surface| - 1) ∧
      ∃ s, index surfaces (|p.surface| - 1) = some s ∧
        text_label surfaces f b = some ("Surface " ++ to_string s.id_) := by
  rw [get_all_bins_eq f p est m hs] at hcontrib
  cases hfound : find f.map_ (|p.surface| - 1) with
  | none =>
    rw [hfound] at hcontrib
    simp at hcontrib
  | some pos =>
    rw [hfound] at hcontrib
    obtain ⟨j, hj, hl, hjlt, hw⟩ := found_of_initialized hinit hsize hfound
    have hb : b = (j : Int) + 1 := by
      have := List.append_cancel_left hcontrib
      simp only [List.cons.injEq, and_true] at this
      rw [← this, hw]
    subst hb
    obtain ⟨_, hn, hmap⟩ := length_of_initialized hinit
    have hc : f.surfaces_[j]? = some (|p.surface| - 1) := (lastPos_some hl).1
    have hmem : some (|p.surface| - 1) ∈ f.surfaces_.map some :=
      List.mem_map_of_mem _ (List.getElem?_mem hc)
    rw [← hmap] at hmem
    obtain ⟨id, _, hid⟩ := List.mem_map.mp hmem
    obtain ⟨sf, hsf, _⟩ := hcons id _ hid
    refine ⟨by omega, by rw [hn]; omega, ?_, sf, hsf, ?_⟩
    · rw [show (j : Int) + 1 - 1 = (j : Int) by omega, index_natCast]
      exact hc
    · exact text_label_succ surfaces f j _ sf (by omega) hc hsf

theorem match_label_same_offset_witness :
    (1 : Int) ≤ 2 ∧ (2 : Int) ≤ (2 : Nat) ∧
      index [(3 : Int), 0] (2 - 1) = some (|(-1 : Int)| - 1) ∧
      ∃ s, index ([⟨9⟩, ⟨2⟩, ⟨4⟩, ⟨5⟩] : List Surface) (|(-1 : Int)| - 1) = some s ∧
        text_label [⟨9⟩, ⟨2⟩, ⟨4⟩, ⟨5⟩] ⟨[3, 0], [(3, 0), (0, 1)], 2⟩ 2 =
          some ("Surface " ++ to_string s.id_) :=
  match_label_same_offset [(5, 3), (9, 0)] [⟨9⟩, ⟨2⟩, ⟨4⟩, ⟨5⟩] [5, 9]
    ⟨[3, 0], [(3, 0), (0, 1)], 2⟩ ⟨-1⟩ 0 ⟨[], []⟩ 2
    (consistent_of_check (by decide)) rfl (by decide) (by decide) (by decide)

/-! ## Frame -/

/-- C10: `get_all_bins` only appends.  For every filter state, indicator and
accumulator, the filter (bins and reverse map) is the same after the call, the
old bins and weights are prefixes of the new ones, and both sequences grow by
the same number of entries, zero or one, so that equal lengths are preserved. -/
theorem get_all_bins_append_only (f : SurfaceFilter) (p : Particle) (est : Int)
    (m : FilterMatch) :
    (get_all_bins f p est m).1.surfaces_ = f.surfaces_ ∧
      (get_all_bins f p est m).1.map_ = f.map_ ∧
      (get_all_bins f p est m).1 = f ∧
      ∃ bs ws, (get_all_bins f p est m).2.bins_ = m.bins_ ++ bs ∧
        (get_all_bins f p est m).2.weights_ = m.weights_ ++ ws ∧
        bs.length = ws.length ∧ bs.length ≤ 1 ∧
        (m.bins_.length = m.weights_.length →
          (get_all_bins f p est m).2.bins_.length =
            (get_all_bins f p est m).2.weights_.length) := by
  unfold get_all_bins
  cases find f.map_ (wrap32 (abs32 p.surface - 1)) with
  | none => exact ⟨rfl, rfl, rfl, [], [], by simp, by simp, rfl, by simp, fun h => h⟩
  | some pos =>
    refine ⟨rfl, rfl, rfl, _, _, rfl, rfl, rfl, by simp, ?_⟩
    intro h
    simp [h]

theorem get_all_bins_append_only_witness :
    (get_all_bins ⟨[3, 7], [(3, 0), (7, 1)], 2⟩ ⟨-8⟩ 0 ⟨[1], [1]⟩).1 =
        ⟨[3, 7], [(3, 0), (7, 1)], 2⟩ ∧
      (get_all_bins ⟨[3, 7], [(3, 0), (7, 1)], 2⟩ ⟨-8⟩ 0 ⟨[1], [1]⟩).2 = ⟨[1, 2], [1, -1]⟩ ∧
      (get_all_bins ⟨[3, 7], [(3, 0), (7, 1)], 2⟩ ⟨-8⟩ 0 ⟨[1], [1]⟩).2.bins_.length =
        (get_all_bins ⟨[3, 7], [(3, 0), (7, 1)], 2⟩ ⟨-8⟩ 0 ⟨[1], [1]⟩).2.weights_.length :=
  ⟨(get_all_bins_append_only ⟨[3, 7], [(3, 0), (7, 1)], 2⟩ ⟨-8⟩ 0 ⟨[1], [1]⟩).2.2.1,
    by decide,
    match (get_all_bins_append_only ⟨[3, 7], [(3, 0), (7, 1)], 2⟩ ⟨-8⟩ 0 ⟨[1], [1]⟩).2.2.2 with
    | ⟨_, _, _, _, _, _, h⟩ => h rfl⟩

/-! ## Persistence across directories -/

/-- C11: the persisted identifiers do not depend on the internal index
assignment.  For two consistent directories that both resolve every configured
identifier, `to_statepoint` after `from_xml` and `initialize` writes the same
sequence under either directory (namely the configured identifiers). -/
theorem statepoint_independent_of_indices (map1 map2 : IntMap) (surfaces1 surfaces2 : List Surface)
    (f0 : SurfaceFilter) (ids : List Int)
    (hcons1 : Consistent map1 surfaces1) (hcons2 : Consistent map2 surfaces2)
    (hres1 : Resolvable map1 ids) (hres2 : Resolvable map2 ids) :
    ∃ f1 f2, initialize_filter map1 (from_xml f0 ids) = .ok f1 ∧
      initialize_filter map2 (from_xml f0 ids) = .ok f2 ∧
      to_statepoint surfaces1 f1 = to_statepoint surfaces2 f2 ∧
      to_statepoint surfaces1 f1 = some ids := by
  obtain ⟨w1, hm1, hok1⟩ := initialize_ok_of_resolvable map1 (from_xml f0 ids) hres1
  obtain ⟨w2, hm2, hok2⟩ := initialize_ok_of_resolvable map2 (from_xml f0 ids) hres2
  have h1 := surface_ids_of_consistent hcons1 ids w1 hm1
  have h2 := surface_ids_of_consistent hcons2 ids w2 hm2
  exact ⟨_, _, hok1, hok2, h1.trans h2.symm, h1⟩

theorem statepoint_independent_of_indices_witness :
    ∃ f1 f2, initialize_filter [(5, 1), (9, 0)] (from_xml SurfaceFilter.fresh [9, 5]) = .ok f1 ∧
      initialize_filter [(5, 0), (9, 2)] (from_xml SurfaceFilter.fresh [9, 5]) = .ok f2 ∧
      to_statepoint [⟨9⟩, ⟨5⟩] f1 = to_statepoint [⟨5⟩, ⟨7⟩, ⟨9⟩] f2 ∧
      to_statepoint [⟨9⟩, ⟨5⟩] f1 = some [9, 5] :=
  statepoint_independent_of_indices [(5, 1), (9, 0)] [(5, 0), (9, 2)] [⟨9⟩, ⟨5⟩]
    [⟨5⟩, ⟨7⟩, ⟨9⟩] SurfaceFilter.fresh [9, 5] (consistent_of_check (by decide))
    (consistent_of_check (by decide)) (by decide) (by decide)

/-! ## State at a failed initialisation -/

/-- C12, as stated, fails: with the directory `5 ↦ 0` and the configured
identifiers `[5, 6]`, the fatal error for `6` is raised when the bins already
read `[0, 6]`, not `[5, 6]`. -/
theorem failed_initialize_not_verbatim :
    ∃ e, initialize_filter [(5, 0)] (from_xml SurfaceFilter.fresh [5, 6]) = .error e ∧
      e.state.surfaces_ = [0, 6] ∧
      e.state.surfaces_ ≠ (from_xml SurfaceFilter.fresh [5, 6]).surfaces_ :=
  ⟨_, rfl, rfl, by decide⟩

/-- C12, amended: when some configured identifier is unresolvable, `initialize`
raises the fatal error with the reverse map and the bin count unchanged; the
bins hold the resolved indices of the identifiers before the first unresolvable
one, and the configured identifiers verbatim from that one on. -/
theorem failed_initialize_state (surface_map : IntMap) (f : SurfaceFilter)
    (habsent : ¬ Resolvable surface_map f.surfaces_) :
    ∃ e pre s post w, initialize_filter surface_map f = .error e ∧
      f.surfaces_ = pre ++ s :: post ∧ find surface_map s = none ∧
      pre.map (find surface_map) = w.map some ∧
      e.state.surfaces_ = w ++ s :: post ∧
      e.state.map_ = f.map_ ∧ e.state.n_bins_ = f.n_bins_ := by
  obtain ⟨e, he⟩ := initialize_error_of_absent surface_map f habsent
  obtain ⟨pre, s, post, w, h1, h2, h3, h4⟩ := initialize_error_shape surface_map f e he
  subst h4
  exact ⟨_, pre, s, post, w, he, h1, h3, h2, rfl, rfl, rfl⟩

theorem failed_initialize_state_witness :
    ∃ e pre s post w,
      initialize_filter [(5, 0)] (from_xml SurfaceFilter.fresh [5, 6, 7]) = .error e ∧
      (from_xml SurfaceFilter.fresh [5, 6, 7]).surfaces_ = pre ++ s :: post ∧
      find [(5, 0)] s = none ∧
      pre.map (find [(5, 0)]) = w.map some ∧
      e.state.surfaces_ = w ++ s :: post ∧
      e.state.map_ = (from_xml SurfaceFilter.fresh [5, 6, 7]).map_ ∧
      e.state.n_bins_ = (from_xml SurfaceFilter.fresh [5, 6, 7]).n_bins_ :=
  failed_initialize_state [(5, 0)] (from_xml SurfaceFilter.fresh [5, 6, 7]) (by decide)

/-! ## Totality after initialisation -/

/-- C13: after a successful `initialize` against a well-formed directory, every
entry of the bins is a valid position of the surface array, `to_statepoint`
returns a dataset, and `text_label b` returns a label for every `b` in
`[1, n_bins_]`: no access `surfaces[bins[i]]` or `bins[b-1]` is out of bounds. -/
theorem initialized_accesses_in_bounds (surface_map : IntMap) (surfaces : List Surface)
    (f0 f : SurfaceFilter) (ids : List Int) (hwf : WellFormed surface_map surfaces)
    (hinit : initialize_filter surface_map (from_xml f0 ids) = .ok f) :
    (∀ c ∈ f.surfaces_, ∃ s, index surfaces c = some s) ∧
      (∃ out, to_statepoint surfaces f = some out ∧ out.length = f.n_bins_) ∧
      ∀ b : Int, 1 ≤ b → b ≤ f.n_bins_ → inInt32 b →
        ∃ c s label, index f.surfaces_ (b - 1) = some c ∧ index surfaces c = some s ∧
          text_label surfaces f b = some label := by
  obtain ⟨hlen, hn, hmap⟩ := length_of_initialized hinit
  have hvalid : ∀ c ∈ f.surfaces_, index surfaces c ≠ none := by
    intro c hc
    have : some c ∈ f.surfaces_.map some := List.mem_map_of_mem _ hc
    rw [← hmap] at this
    obtain ⟨id, _, hid⟩ := List.mem_map.mp this
    exact hwf id c hid
  refine ⟨fun c hc => Option.ne_none_iff_exists'.mp (hvalid c hc), ?_, ?_⟩
  · obtain ⟨out, ho, hl⟩ := surface_ids_total surfaces f.surfaces_ hvalid
    exact ⟨out, ho, by rw [hl, hlen, hn]⟩
  · intro b hb1 hb2 hb
    rw [hn] at hb2
    obtain ⟨j, rfl⟩ : ∃ j : Nat, b = (j : Int) + 1 := ⟨(b - 1).toNat, by omega⟩
    have hjlt : j < f.surfaces_.length := by omega
    have hc : f.surfaces_[j]? = some f.surfaces_[j] := List.getElem?_eq_getElem hjlt
    obtain ⟨sf, hsf⟩ := Option.ne_none_iff_exists'.mp (hvalid _ (List.getElem_mem hjlt))
    refine ⟨f.surfaces_[j], sf, "Surface " ++ to_string sf.id_, ?_, hsf, ?_⟩
    · rw [show (j : Int) + 1 - 1 = (j : Int) by omega, index_natCast]
      exact hc
    · refine text_label_succ surfaces f j _ sf ?_ hc hsf
      unfold inInt32 at hb
      omega

theorem initialized_accesses_in_bounds_witness :
    (∀ c ∈ [(1 : Int), 0, 1], ∃ s, index ([⟨4⟩, ⟨8⟩] : List Surface) c = some s) ∧
      (∃ out, to_statepoint [⟨4⟩, ⟨8⟩] ⟨[1, 0, 1], [(1, 2), (0, 1)], 3⟩ = some out ∧
        out.length = 3) ∧
      ∀ b : Int, 1 ≤ b → b ≤ (3 : Nat) → inInt32 b →
        ∃ c s label, index [(1 : Int), 0, 1] (b - 1) = some c ∧
          index ([⟨4⟩, ⟨8⟩] : List Surface) c = some s ∧
          text_label [⟨4⟩, ⟨8⟩] ⟨[1, 0, 1], [(1, 2), (0, 1)], 3⟩ b = some label :=
  initialized_accesses_in_bounds [(5, 1), (9, 0)] [⟨4⟩, ⟨8⟩] SurfaceFilter.fresh
    ⟨[1, 0, 1], [(1, 2), (0, 1)], 3⟩ [5, 9, 5] (wellFormed_of_entries (by decide)) rfl

/-! ## Direction symmetry -/

/-- C14: direction symmetry.  For a non-zero indicator `s` whose negation is
representable, `get_all_bins` contributes for `-s` exactly when it contributes
for `s`; when it does, both calls append the same bin, and the weights are `1`
and `-1`, each the negation of the other. -/
theorem get_all_bins_direction_symmetry (f : SurfaceFilter) (s est : Int) (m : FilterMatch)
    (_hs : inInt32 s) (_hneg : inInt32 (-s)) (hnz : s ≠ 0) :
    ((get_all_bins f ⟨-s⟩ est m).2 ≠ m ↔ (get_all_bins f ⟨s⟩ est m).2 ≠ m) ∧
      ((get_all_bins f ⟨s⟩ est m).2 ≠ m →
        ∃ b w, (w = 1 ∨ w = -1) ∧
          (get_all_bins f ⟨s⟩ est m).2 = ⟨m.bins_ ++ [b], m.weights_ ++ [w]⟩ ∧
          (get_all_bins f ⟨-s⟩ est m).2 = ⟨m.bins_ ++ [b], m.weights_ ++ [-w]⟩) := by
  unfold get_all_bins
  simp only [abs32_neg]
  cases find f.map_ (wrap32 (abs32 s - 1)) with
  | none => simp
  | some pos =>
    have hne : ∀ (x w : Int),
        (⟨m.bins_ ++ [x], m.weights_ ++ [w]⟩ : FilterMatch) ≠ m := by
      intro x w h
      have := congrArg (fun r => r.bins_.length) h
      simp at this
    refine ⟨⟨fun _ => hne _ _, fun _ => hne _ _⟩, fun _ => ?_⟩
    rcases lt_or_gt_of_ne hnz with h | h
    · refine ⟨wrap32 (pos + 1), -1, Or.inr rfl, by simp [h], ?_⟩
      have : ¬ (-s < 0) := by omega
      simp [this]
    · refine ⟨wrap32 (pos + 1), 1, Or.inl rfl, ?_, ?_⟩
      · have : ¬ (s < 0) := by omega
        simp [this]
      · have : -s < 0 := by omega
        simp [this]

theorem get_all_bins_direction_symmetry_witness :
    ((get_all_bins ⟨[3, 7], [(3, 0), (7, 1)], 2⟩ ⟨-8⟩ 0 ⟨[], []⟩).2 ≠ ⟨[], []⟩ ↔
        (get_all_bins ⟨[3, 7], [(3, 0), (7, 1)], 2⟩ ⟨8⟩ 0 ⟨[], []⟩).2 ≠ ⟨[], []⟩) ∧
      ((get_all_bins ⟨[3, 7], [(3, 0), (7, 1)], 2⟩ ⟨8⟩ 0 ⟨[], []⟩).2 ≠ ⟨[], []⟩ →
        ∃ b w, (w = 1 ∨ w = -1) ∧
          (get_all_bins ⟨[3, 7], [(3, 0), (7, 1)], 2⟩ ⟨8⟩ 0 ⟨[], []⟩).2 = ⟨[] ++ [b], [] ++ [w]⟩ ∧
          (get_all_bins ⟨[3, 7], [(3, 0), (7, 1)], 2⟩ ⟨-8⟩ 0 ⟨[], []⟩).2 =
            ⟨[] ++ [b], [] ++ [-w]⟩) :=
  get_all_bins_direction_symmetry ⟨[3, 7], [(3, 0), (7, 1)], 2⟩ 8 0 ⟨[], []⟩
    (by decide) (by decide) (by decide)

/-! ## Reverse map -/

/-- C15: after a successful `initialize` on a freshly configured filter, the
reverse map has exactly one entry per distinct index of the bins: its keys are
pairwise distinct, a key is present exactly when it occurs in the bins, and the
position `p` stored for a key `k` satisfies `0 ≤ p < n_bins_` and
`bins[p] = k`. -/
theorem reverse_map_entries (surface_map : IntMap) (ids : List Int) (f : SurfaceFilter)
    (hinit : initialize_filter surface_map (from_xml SurfaceFilter.fresh ids) = .ok f) :
    (keys f.map_).Nodup ∧ f.map_.length = f.surfaces_.dedup.length ∧
      (∀ k, k ∈ keys f.map_ ↔ k ∈ f.surfaces_) ∧
      (∀ k, find f.map_ k ≠ none ↔ k ∈ f.surfaces_) ∧
      ∀ k p, (k, p) ∈ f.map_ →
        find f.map_ k = some p ∧ 0 ≤ p ∧ p < f.n_bins_ ∧ index f.surfaces_ p = some k := by
  obtain ⟨hlen, hn, _⟩ := length_of_initialized hinit
  obtain ⟨w, _, hf⟩ := (initialize_ok_iff surface_map _ f).mp hinit
  have hmap : f.map_ = populate [] f.surfaces_ 0 := by
    rw [hf]
    rfl
  have hnd : (keys f.map_).Nodup := by
    rw [hmap]
    exact nodup_keys_populate [] _ 0 (by simp [keys])
  have hkeys : ∀ k, k ∈ keys f.map_ ↔ k ∈ f.surfaces_ := by
    intro k
    rw [hmap, mem_keys_populate]
    simp [keys]
  refine ⟨hnd, ?_, hkeys, ?_, ?_⟩
  · have hperm : (keys f.map_).Perm f.surfaces_.dedup :=
      (List.perm_ext_iff_of_nodup hnd (List.nodup_dedup _)).mpr
        (fun k => by rw [hkeys, List.mem_dedup])
    have := hperm.length_eq
    simpa [keys] using this
  · intro k
    rw [find_ne_none_iff_mem_keys, hkeys]
  · intro k p hmem
    have hfind := find_of_mem_of_nodup hnd hmem
    refine ⟨hfind, ?_⟩
    rw [find_map_of_initialized hinit] at hfind
    cases hl : lastPos k f.surfaces_ with
    | none => rw [hl] at hfind; simp at hfind
    | some j =>
      rw [hl] at hfind
      have hp : (j : Int) = p := by simpa using hfind
      subst hp
      have hjlt := lastPos_lt hl
      refine ⟨by omega, by rw [hn, ← hlen]; exact_mod_cast hjlt, ?_⟩
      rw [index_natCast]
      exact (lastPos_some hl).1

theorem reverse_map_entries_witness :
    (keys [((3 : Int), (2 : Int)), (7, 1)]).Nodup ∧
      [((3 : Int), (2 : Int)), (7, 1)].length = [(3 : Int), 7, 3].dedup.length ∧
      (∀ k, k ∈ keys [(3, 2), (7, 1)] ↔ k ∈ [(3 : Int), 7, 3]) ∧
      (∀ k, find [(3, 2), (7, 1)] k ≠ none ↔ k ∈ [(3 : Int), 7, 3]) ∧
      ∀ k p, (k, p) ∈ [((3 : Int), (2 : Int)), (7, 1)] →
        find [(3, 2), (7, 1)] k = some p ∧ 0 ≤ p ∧ p < (3 : Nat) ∧
          index [(3 : Int), 7, 3] p = some k :=
  reverse_map_entries [(10, 3), (20, 7)] [10, 20, 10] ⟨[3, 7, 3], [(3, 2), (7, 1)], 3⟩ rfl

/-! ## Error message -/

/-- C16: when `initialize` fails, the message of the fatal error is exactly
"Could not find surface <id> specified on tally filter.", where `<id>` is the
decimal rendering of the first configured identifier that is absent from the
directory, all identifiers before it being present. -/
theorem fatal_message_names_first_absent (surface_map : IntMap) (f : SurfaceFilter) (e : Fatal)
    (hfail : initialize_filter surface_map f = .error e) :
    ∃ pre s post, f.surfaces_ = pre ++ s :: post ∧ Resolvable surface_map pre ∧
      find surface_map s = none ∧
      e.msg = "Could not find surface " ++ to_string s ++ " specified on tally filter." := by
  obtain ⟨pre, s, post, w, h1, h2, h3, h4⟩ := initialize_error_shape surface_map f e hfail
  subst h4
  exact ⟨pre, s, post, h1, resolvable_of_map_find h2, h3, rfl⟩

theorem fatal_message_names_first_absent_witness :
    (∃ pre s post, (from_xml SurfaceFilter.fresh [5, 6, 7]).surfaces_ = pre ++ s :: post ∧
        Resolvable [(5, 0)] pre ∧ find [(5, 0)] s = none ∧
        (Fatal.mk "Could not find surface 6 specified on tally filter." ⟨[0, 6, 7], [], 3⟩).msg =
          "Could not find surface " ++ to_string s ++ " specified on tally filter.") ∧
      initialize_filter [(5, 0)] (from_xml SurfaceFilter.fresh [5, 6, 7]) =
        .error ⟨"Could not find surface 6 specified on tally filter.", ⟨[0, 6, 7], [], 3⟩⟩ := by
  have hmsg : err_msg 6 = "Could not find surface 6 specified on tally filter." := by decide
  have hfail : initialize_filter [(5, 0)] (from_xml SurfaceFilter.fresh [5, 6, 7]) =
      .error ⟨"Could not find surface 6 specified on tally filter.", ⟨[0, 6, 7], [], 3⟩⟩ := by
    rw [← hmsg]
    rfl
  exact ⟨fatal_message_names_first_absent [(5, 0)] (from_xml SurfaceFilter.fresh [5, 6, 7])
    _ hfail, hfail⟩

/-! ## Round trip with repeated identifiers -/

/-- C17: the round trip needs no distinctness.  Against a consistent directory,
for every list of resolvable identifiers, repeated or not, `to_statepoint` after
`from_xml` and `initialize` writes exactly the configured list, whose length is
the bin count. -/
theorem statepoint_roundtrip_any (surface_map : IntMap) (surfaces : List Surface)
    (f0 : SurfaceFilter) (ids : List Int) (hcons : Consistent surface_map surfaces)
    (hres : Resolvable surface_map ids) :
    ∃ f, initialize_filter surface_map (from_xml f0 ids) = .ok f ∧
      to_statepoint surfaces f = some ids ∧ ids.length = f.n_bins_ := by
  obtain ⟨w, hm, hok⟩ := initialize_ok_of_resolvable surface_map (from_xml f0 ids) hres
  exact ⟨_, hok, surface_ids_of_consistent hcons ids w hm, rfl⟩

theorem statepoint_roundtrip_any_witness :
    ∃ f, initialize_filter [(5, 1), (9, 0)] (from_xml SurfaceFilter.fresh [5, 9, 5, 5]) = .ok f ∧
      to_statepoint [⟨9⟩, ⟨5⟩] f = some [5, 9, 5, 5] ∧ [(5 : Int), 9, 5, 5].length = f.n_bins_ :=
  statepoint_roundtrip_any [(5, 1), (9, 0)] [⟨9⟩, ⟨5⟩] SurfaceFilter.fresh [5, 9, 5, 5]
    (consistent_of_check (by decide)) (by decide)

/-! ## Repeated initialisation -/

/-- C18: `initialize` is not idempotent.  There are a directory and a configured
list on which the first call succeeds and a second call on the result does not
return the same filter.  With the directory `5 ↦ 0` and the identifiers `[5]`
the first call yields the bins `[0]` and the second fails on the identifier `0`;
with the directory `5 ↦ 0, 0 ↦ 1` the second call succeeds with the bins `[1]`. -/
theorem initialize_not_idempotent :
    (∃ surface_map ids f,
        initialize_filter surface_map (from_xml SurfaceFilter.fresh ids) = .ok f ∧
        initialize_filter surface_map f ≠ .ok f) ∧
      initialize_filter [(5, 0)] (from_xml SurfaceFilter.fresh [5]) = .ok ⟨[0], [(0, 0)], 1⟩ ∧
      initialize_filter [(5, 0)] ⟨[0], [(0, 0)], 1⟩ =
        .error ⟨"Could not find surface 0 specified on tally filter.", ⟨[0], [(0, 0)], 1⟩⟩ ∧
      initialize_filter [(5, 0), (0, 1)] (from_xml SurfaceFilter.fresh [5]) =
        .ok ⟨[0], [(0, 0)], 1⟩ ∧
      initialize_filter [(5, 0), (0, 1)] ⟨[0], [(0, 0)], 1⟩ =
        .ok ⟨[1], [(0, 0), (1, 0)], 1⟩ := by
  have h2 : initialize_filter [(5, 0)] ⟨[0], [(0, 0)], 1⟩ =
      .error ⟨"Could not find surface 0 specified on tally filter.", ⟨[0], [(0, 0)], 1⟩⟩ := by
    have hmsg : err_msg 0 = "Could not find surface 0 specified on tally filter." := by decide
    rw [← hmsg]
    rfl
  refine ⟨⟨[(5, 0)], [5], ⟨[0], [(0, 0)], 1⟩, rfl, ?_⟩, rfl, h2, rfl, rfl⟩
  rw [h2]
  intro h
  cases h

end openmc
